import Mathlib

/-!
A shallow embedding of the two Python source files of graydon/scholar-digest:

* `edit.py`    — a block-stream editor: `flush_block`, `drop_blocks`, `show_blocks`,
  the `inplace` atomic-rewrite protocol, and the CLI `main`.
* `harvest.py` — the Google-Scholar alert aggregator: `Paper`, `note_subject`,
  the `ScholarScraper` event handlers, and the filtering `dump`.

Files are modelled as lists of line bodies: the strings yielded by Python's
file-line iteration with the trailing newline removed, which is exactly what
`line.rstrip('\n')` leaves on such lines.  The editor's regular-expression
predicate is modelled as a boolean predicate on lines (`pat.search(line)` is
truthy iff the predicate holds).  The three subject regexes of `harvest.py`
are anchored suffix patterns and are modelled as such.
-/

-- ===================== edit.py =====================

/-- Separator token (edit.py line 11: `SEP = "---"`). -/
def SEP : String := "---"

/-- Python's `str.startswith`, on which the editor's boundary test is built. -/
def pyStartsWith (s pre : String) : Bool := pre.data.isPrefixOf s.data

/-- The editor's block-boundary test, edit.py lines 94 and 110:
`line.startswith(SEP)`, applied after `line.rstrip('\n')`. -/
def isSep (l : String) : Bool := pyStartsWith l SEP

/-- edit.py lines 80–86, `flush_block(outfh, keep, lines)`: when `keep` is
set it writes the separator line and then every accumulated line; output is
modelled as the list of lines written. -/
def flush_block (keep : Bool) (lines : List String) : List String :=
  if keep then SEP :: lines else []

/-- The loop of edit.py `drop_blocks` (lines 92–103): `acc` is the Python
`lines` accumulator, `keep` the keep flag (initially `True`); a matching line
sets `keep = False`; at end of input a non-empty accumulator is flushed. -/
def dropGo (pat : String → Bool) : List String → List String → Bool → List String
  | [], acc, keep => if 0 < acc.length then flush_block keep acc else []
  | l :: rest, acc, keep =>
    if isSep l then flush_block keep acc ++ dropGo pat rest [] true
    else dropGo pat rest (acc ++ [l]) (if pat l then false else keep)

/-- edit.py lines 88–103, `drop_blocks(fname, pat)`: the rewritten content of
the file, as the list of lines written through the `inplace` context. -/
def drop_blocks (pat : String → Bool) (input : List String) : List String :=
  dropGo pat input [] true

/-- The loop of edit.py `show_blocks` (lines 106–119): same segmentation, but
`keep` starts `False` and a matching line sets it `True`. -/
def showGo (pat : String → Bool) : List String → List String → Bool → List String
  | [], acc, keep => if 0 < acc.length then flush_block keep acc else []
  | l :: rest, acc, keep =>
    if isSep l then flush_block keep acc ++ showGo pat rest [] false
    else showGo pat rest (acc ++ [l]) (if pat l then true else keep)

/-- edit.py lines 105–119, `show_blocks(fname, pat)`: the lines printed to
standard output. -/
def show_blocks (pat : String → Bool) (input : List String) : List String :=
  showGo pat input [] false

/-- Modelled from the spec's words, for comparison with the source-derived
`drop_blocks`: the same deletion loop, but a line is a block boundary only
when it is exactly equal to the separator token (spec §4.5 "lines exactly
equal to the separator token"). -/
def dropGoExact (pat : String → Bool) : List String → List String → Bool → List String
  | [], acc, keep => if 0 < acc.length then flush_block keep acc else []
  | l :: rest, acc, keep =>
    if l = SEP then flush_block keep acc ++ dropGoExact pat rest [] true
    else dropGoExact pat rest (acc ++ [l]) (if pat l then false else keep)

/-- Modelled from the spec's words: `drop_blocks` with the exact-equality
boundary test of spec §4.5. -/
def drop_blocksExact (pat : String → Bool) (input : List String) : List String :=
  dropGoExact pat input [] true

/-- Segmentation of an input into the groups of non-boundary lines that the
editor's loops accumulate between boundary lines; the final group is the
accumulator left at end of input (possibly empty). -/
def segGo : List String → List String → List (List String)
  | [], acc => [acc]
  | l :: rest, acc => if isSep l then acc :: segGo rest [] else segGo rest (acc ++ [l])

/-- All segments of an input, in order; always non-empty (the last segment is
the trailing accumulator, possibly `[]`). -/
def segments (input : List String) : List (List String) := segGo input []

/-- Serialization of a list of blocks: each block becomes a separator line
followed by its lines (the shape `flush_block` writes for kept blocks). -/
def blocksOut (bs : List (List String)) : List String :=
  (bs.map (fun b => SEP :: b)).flatten

/-- The segments that `drop_blocks` flushes with `keep` still true: a
non-final segment is kept iff no line of it matches (an empty segment is
vacuously kept), the final segment additionally only if it is non-empty. -/
def keptSegs (pat : String → Bool) : List (List String) → List (List String)
  | [] => []
  | [g] => if 0 < g.length && !g.any pat then [g] else []
  | g :: g2 :: rest =>
    (if !g.any pat then [g] else []) ++ keptSegs pat (g2 :: rest)

/-- The segments that `show_blocks` flushes with `keep` true: a non-final
segment is shown iff some line of it matches, the final segment additionally
only if it is non-empty. -/
def shownSegs (pat : String → Bool) : List (List String) → List (List String)
  | [] => []
  | [g] => if 0 < g.length && g.any pat then [g] else []
  | g :: g2 :: rest =>
    (if g.any pat then [g] else []) ++ shownSegs pat (g2 :: rest)

/-- The blocks of a file: its non-empty segments, in order. -/
def origBlocks (input : List String) : List (List String) :=
  (segments input).filter (fun g => !g.isEmpty)

/-- Python file-line iteration: split a file's text into line bodies (the
line contents without their trailing newline; a final chunk not terminated by
a newline is still a line; an empty file has no lines). -/
def splitNlAux : List Char → List Char → List String
  | [], acc => if acc.isEmpty then [] else [String.mk acc]
  | c :: cs, acc =>
    if c = '\n' then String.mk acc :: splitNlAux cs []
    else splitNlAux cs (acc ++ [c])

/-- Line bodies of a file's content, as Python's line iteration yields them
(minus the trailing newline each). -/
def pyLines (s : String) : List String := splitNlAux s.data []

/-- Content written for a list of output lines: each line followed by a
newline, concatenated (edit.py writes `line` then `"\n"` for every line). -/
def render (ls : List String) : String := String.join (ls.map (fun l => l ++ "\n"))

-- ---------- the `inplace` atomic-rewrite protocol (edit.py lines 16–78) ----------

/-- State of the two file-system paths the protocol touches: the original
path (`file`) and its backup path (`bak`); `none` means the path does not
exist, `some c` that it holds content with line bodies `c`. -/
structure FS where
  file : Option (List String)
  bak : Option (List String)
deriving DecidableEq

/-- The file states observed while the new file is written line by line:
after creation (`O_CREAT | O_TRUNC`, so empty) and after each of the first
`k` output lines; the backup holds the original throughout. -/
def writeStates (orig out : List String) (k : Nat) : List FS :=
  (List.range (k + 1)).map (fun i => FS.mk (some (out.take i)) (some orig))

/-- Trace of file-system states of one `--delete` run on a file through
edit.py's `inplace` (lines 16–78) driving `drop_blocks` (lines 88–103), for
an original content `orig`, an optional pre-existing backup `bak0`, and an
optional injected failure after `failAfter` output lines have been written.
In order: the initial state; after `os.unlink(backupfilename)` (line 38,
errors ignored); after `os.rename(filename, backupfilename)` (line 41);
the write states of the new file opened at the original path (lines 51–56,
then the write loop); then on failure the `except` branch (lines 64–71):
`os.unlink(filename)`, `os.rename(backupfilename, filename)`, re-raise —
the `finally` unlink of the backup (lines 75–78) then fails silently — and
on success the `finally` unlink of the backup.  The boolean records whether
the exception propagates. -/
def inplaceTrace (orig : List String) (pat : String → Bool)
    (bak0 : Option (List String)) (failAfter : Option Nat) : List FS × Bool :=
  let out := drop_blocks pat orig
  let pre : List FS := [FS.mk (some orig) bak0, FS.mk (some orig) none, FS.mk none (some orig)]
  match failAfter with
  | some k =>
    (pre ++ writeStates orig out (min k out.length) ++
      [FS.mk none (some orig), FS.mk (some orig) none], true)
  | none =>
    (pre ++ writeStates orig out out.length ++ [FS.mk (some out) none], false)

-- ---------- the CLI `main` (edit.py lines 122–141) ----------

/-- Outcome of running `main`: a usage diagnostic printed followed by
`exit(1)`; an uncaught `re.error` from `re.compile` on a pattern that is not
a valid regular expression; an uncaught `TypeError` from `for f in args.file`
when the file list is `None`; or a normal run of the chosen mode over the
files. -/
inductive MainResult where
  | usageExit (msg : String)
  | reError
  | typeError
  | run (isShow : Bool) (patternStr : String) (files : List String)
deriving DecidableEq

/-- Python truthiness of an optional string argument: `None` and `""` are
falsy. -/
def truthy : Option String → Bool
  | none => false
  | some s => !(s == "")

/-- edit.py `main` (lines 122–141).  `argparse` yields `showA`/`deleteA` as
optional strings (default `None`) and `fileA` as an optional list (`append`
action, default `None` when the flag never occurs).  After the two usage
checks (lines 128–133), the chosen mode first runs `re.compile` on its
pattern (line 135 or 139) — regex-syntax validity is abstracted into the
`compileOk` parameter, and a failing compile raises an uncaught `re.error`
before the file loop is reached — and only then iterates `args.file`
(line 136 or 140), where `for f in None` raises `TypeError`. -/
def mainModel (compileOk : String → Bool) (showA deleteA : Option String)
    (fileA : Option (List String)) : MainResult :=
  if truthy showA && truthy deleteA then
    MainResult.usageExit "can only pass one of --show or --delete"
  else if !truthy showA && !truthy deleteA then
    MainResult.usageExit "must pass one of --show or --delete"
  else if truthy showA then
    if compileOk (showA.getD "") then
      match fileA with
      | none => MainResult.typeError
      | some fs => MainResult.run true (showA.getD "") fs
    else MainResult.reError
  else
    if compileOk (deleteA.getD "") then
      match fileA with
      | none => MainResult.typeError
      | some fs => MainResult.run false (deleteA.getD "") fs
    else MainResult.reError

-- ===================== harvest.py =====================

/-- The body a Python regex `^(.*) - <suffix>$` is matched against: `$` may
consume a single trailing newline of the subject (no `re.MULTILINE`). -/
def rxBody (s : String) : List Char :=
  if s.data.getLast? = some '\n' then s.data.dropLast else s.data

/-- Python `re.match` of an anchored pattern `^(.*)<suf>$` (no `re.DOTALL`,
so `.` does not match a newline): succeeds iff the body ends with `suf` and
the remaining prefix — the captured group — contains no newline. -/
def rxMatchSuffix (suf : String) (s : String) : Option String :=
  let b := rxBody s
  let p := b.take (b.length - suf.data.length)
  if suf.data.isSuffixOf b && !(p.contains '\n') then some (String.mk p) else none

/-- harvest.py line 59: `author_rx = re.compile("^(.*) - new articles$")`,
returning the captured group on a match. -/
def author_rx (s : String) : Option String := rxMatchSuffix " - new articles" s

/-- harvest.py line 60: `citing_rx = re.compile("^(.*) - new citations$")`. -/
def citing_rx (s : String) : Option String := rxMatchSuffix " - new citations" s

/-- harvest.py line 61:
`related_rx = re.compile("^(.*) - new related research$")`. -/
def related_rx (s : String) : Option String := rxMatchSuffix " - new related research" s

/-- harvest.py lines 63–69, class `Paper`: url, description, and the three
name sets. -/
structure Paper where
  url : String
  desc : String
  author : Finset String
  citing : Finset String
  related : Finset String
deriving DecidableEq

/-- harvest.py lines 64–69, `Paper.__init__(url, desc)`. -/
def Paper.init (url desc : String) : Paper := ⟨url, desc, ∅, ∅, ∅⟩

/-- harvest.py lines 71–81, `Paper.note_subject(subject)`: on an author
match, add the group and return; otherwise the citing match adds (without
returning) and the related match is still checked afterwards. -/
def note_subject (p : Paper) (subject : String) : Paper :=
  match author_rx subject with
  | some am => { p with author := insert am p.author }
  | none =>
    let p1 :=
      match citing_rx subject with
      | some cm => { p with citing := insert cm p.citing }
      | none => p
    match related_rx subject with
    | some rm => { p1 with related := insert rm p1.related }
    | none => p1

/-- Modelled from the spec's words, for comparison with the source-derived
`note_subject`: three mutually exclusive patterns tried in the fixed order
author, citation, related, only the first match applying (spec §4.1). -/
def note_subjectSpec (p : Paper) (subject : String) : Paper :=
  match author_rx subject with
  | some am => { p with author := insert am p.author }
  | none =>
    match citing_rx subject with
    | some cm => { p with citing := insert cm p.citing }
    | none =>
      match related_rx subject with
      | some rm => { p with related := insert rm p.related }
      | none => p

/-- harvest.py lines 96–125, the mutable state of `ScholarScraper`: the
url → `Paper` mapping (a Python dict, i.e. an insertion-ordered association
list with unique keys) and the two pending fields. -/
structure SState where
  papers : List (String × Paper)
  pending_subject : Option String
  pending_url : Option String
deriving DecidableEq

def initialScraper : SState := ⟨[], none, none⟩

/-- Whether the dict already has key `u` (`self.pending_url not in self.papers`). -/
def hasKey (papers : List (String × Paper)) (u : String) : Bool :=
  papers.any (fun e => e.1 == u)

/-- In-place mutation of the paper stored under key `u`
(`paper.note_subject(...)` on `self.papers[self.pending_url]`). -/
def noteAt (papers : List (String × Paper)) (u subj : String) : List (String × Paper) :=
  papers.map (fun e => if e.1 == u then (e.1, note_subject e.2 subj) else e)

/-- harvest.py lines 103–110, `handle_starttag`: a qualifying anchor
(`<a class="gse_alrt_title" href=...>` whose href query has a `url`
parameter) sets `pending_url` to the extracted canonical url; any other
start tag leaves the state unchanged.  The url extraction itself
(`urlparse`/`parse_qs`) is abstracted into the event carrying the already
extracted optional url. -/
def handle_starttag (st : SState) (u : Option String) : SState :=
  match u with
  | none => st
  | some u => { st with pending_url := some u }

/-- harvest.py lines 112–114, `handle_endtag`: any end tag clears a set
`pending_url`. -/
def handle_endtag (st : SState) : SState :=
  if st.pending_url.isSome then { st with pending_url := none } else st

/-- harvest.py lines 116–122, `handle_data`: while a url is pending, lazily
create its `Paper` from the first text observed, then classify the pending
subject into it. -/
def handle_data (st : SState) (d : String) : SState :=
  match st.pending_url with
  | none => st
  | some u =>
    let papers1 :=
      if hasKey st.papers u then st.papers else st.papers ++ [(u, Paper.init u d)]
    match st.pending_subject with
    | none => { st with papers := papers1 }
    | some subj => { st with papers := noteAt papers1 u subj }

/-- harvest.py lines 124–125, `set_subject` (utf-8 decoding abstracted). -/
def set_subject (st : SState) (s : String) : SState :=
  { st with pending_subject := some s }

/-- Parser events, at the granularity of the `HTMLParser` callbacks the
scraper overrides: a start tag (carrying the canonical url the code would
extract, if any), an end tag, a run of text, or a `set_subject` call between
fragments. -/
inductive Ev where
  | starttag (u : Option String)
  | endtag
  | data (d : String)
  | setSubject (s : String)
deriving DecidableEq

/-- One scraper callback. -/
def stepEv (st : SState) : Ev → SState
  | Ev.starttag u => handle_starttag st u
  | Ev.endtag => handle_endtag st
  | Ev.data d => handle_data st d
  | Ev.setSubject s => set_subject st s

/-- Run of the scraper over a list of events from a given state. -/
def runFrom (st : SState) (evs : List Ev) : SState := evs.foldl stepEv st

/-- Run of a whole session from the fresh scraper. -/
def runEvents (evs : List Ev) : SState := runFrom initialScraper evs

/-- The (url, text) observations of a run: the data events that fire while a
url is pending, tagged with that url, in order. -/
def obsFrom (pending : Option String) : List Ev → List (String × String)
  | [] => []
  | Ev.starttag none :: r => obsFrom pending r
  | Ev.starttag (some u) :: r => obsFrom (some u) r
  | Ev.endtag :: r => obsFrom none r
  | Ev.data d :: r =>
    (match pending with | some u => [(u, d)] | none => []) ++ obsFrom pending r
  | Ev.setSubject _ :: r => obsFrom pending r

/-- Fold step recording one observation in the (url, description) view:
the first observation of a url files it, later ones change nothing. -/
def addObs (v : List (String × String)) (o : String × String) : List (String × String) :=
  if v.any (fun e => e.1 == o.1) then v else v ++ [o]

/-- The distinct urls of a list of observations, in first-occurrence order. -/
def firstKeys (obs : List (String × String)) : List String :=
  obs.foldl (fun ks o => if ks.contains o.1 then ks else ks ++ [o.1]) []

-- ---------- triples (spec §4.3's unit of reordering) ----------

/-- One (subject, url, description-candidate) triple. -/
abbrev Triple := String × String × String

/-- The two-step sequence {set current subject; parse fragment} for one
triple: the fragment contains a qualifying anchor for the url, its text, and
a closing tag. -/
def processTriple (st : SState) (t : Triple) : SState :=
  runFrom st [Ev.setSubject t.1, Ev.starttag (some t.2.1), Ev.data t.2.2, Ev.endtag]

/-- A whole run over a list of triples from the fresh scraper. -/
def runTriples (ts : List Triple) : SState :=
  ts.foldl processTriple initialScraper

/-- The dict-update effect of one triple on the papers mapping (closed form
of `processTriple` on the `papers` field). -/
def updT (papers : List (String × Paper)) (t : Triple) : List (String × Paper) :=
  noteAt (if hasKey papers t.2.1 then papers else papers ++ [(t.2.1, Paper.init t.2.1 t.2.2)])
    t.2.1 t.1

/-- Sequential classification of a list of subjects into one paper. -/
def applySubs (p : Paper) (subs : List String) : Paper := subs.foldl note_subject p

/-- Lookup of the paper recorded for a url. -/
def lookupPaper (papers : List (String × Paper)) (u : String) : Option Paper :=
  (papers.find? (fun e => e.1 == u)).map Prod.snd

-- ---------- the filtering dump (harvest.py lines 127–143) ----------

/-- Python's substring containment `sub in s`. -/
def infixCheck (sub : List Char) : List Char → Bool
  | [] => sub.isEmpty
  | c :: rest => sub.isPrefixOf (c :: rest) || infixCheck sub rest

/-- Python `sub in s` on strings. -/
def containsSub (s sub : String) : Bool := infixCheck sub.data s.data

/-- Python `str.lower` (ASCII case folding, the relevant fragment). -/
def lowerStr (s : String) : String := String.mk (s.data.map Char.toLower)

/-- harvest.py lines 139–143, the loop of `ScholarScraper.dump`: iterate the
mapping in order and emit each paper unless a publisher-blacklist substring
occurs in the dict key (the url) or a topic-blacklist substring occurs in
the lower-cased description.  Output is modelled as the list of papers
serialized, in order. -/
def scraper_dump (papers : List (String × Paper)) (nonfree topic : List String) : List Paper :=
  papers.foldl
    (fun acc e =>
      if !(nonfree.any (fun b => containsSub e.1 b)) then
        if !(topic.any (fun t => containsSub (lowerStr e.2.desc) t)) then acc ++ [e.2]
        else acc
      else acc)
    []

/-- The exclusion test of the dump loop, as a predicate on one mapping
entry. -/
def excludedB (nonfree topic : List String) (e : String × Paper) : Bool :=
  nonfree.any (fun b => containsSub e.1 b) ||
    topic.any (fun t => containsSub (lowerStr e.2.desc) t)

-- ===================== lemmas: block segmentation =====================

theorem blocksOut_append (xs ys : List (List String)) :
    blocksOut (xs ++ ys) = blocksOut xs ++ blocksOut ys := by
  simp [blocksOut]

theorem segGo_ne_nil : ∀ (input acc : List String), segGo input acc ≠ [] := by
  intro input
  induction input with
  | nil => intro acc; simp [segGo]
  | cons l rest ih =>
    intro acc
    by_cases h : isSep l = true <;> simp [segGo, h, ih]

theorem dropGo_eq (pat : String → Bool) :
    ∀ (input acc : List String),
      dropGo pat input acc (!acc.any pat) = blocksOut (keptSegs pat (segGo input acc)) := by
  intro input
  induction input with
  | nil =>
    intro acc
    cases acc with
    | nil => simp [dropGo, segGo, keptSegs, blocksOut]
    | cons a as =>
      by_cases h : (a :: as).any pat = true <;>
        simp [dropGo, segGo, keptSegs, blocksOut, flush_block, h]
  | cons l rest ih =>
    intro acc
    by_cases h : isSep l = true
    · obtain ⟨g2, t, hgt⟩ := List.exists_cons_of_ne_nil (segGo_ne_nil rest [])
      have h0 : dropGo pat rest [] true = blocksOut (keptSegs pat (g2 :: t)) := by
        have h1 := ih []
        simpa [hgt] using h1
      by_cases ha : acc.any pat = true <;>
        simp [dropGo, segGo, keptSegs, h, hgt, h0, flush_block, ha, blocksOut_append,
          blocksOut]
    · have hk : (if pat l = true then false else !acc.any pat) = !((acc ++ [l]).any pat) := by
        by_cases hp : pat l = true <;> simp [hp]
      simp only [dropGo, h, if_false, hk, Bool.false_eq_true]
      rw [ih (acc ++ [l])]
      simp [segGo, h]

theorem showGo_eq (pat : String → Bool) :
    ∀ (input acc : List String),
      showGo pat input acc (acc.any pat) = blocksOut (shownSegs pat (segGo input acc)) := by
  intro input
  induction input with
  | nil =>
    intro acc
    cases acc with
    | nil => simp [showGo, segGo, shownSegs, blocksOut]
    | cons a as =>
      by_cases h : (a :: as).any pat = true <;>
        simp [showGo, segGo, shownSegs, blocksOut, flush_block, h]
  | cons l rest ih =>
    intro acc
    by_cases h : isSep l = true
    · obtain ⟨g2, t, hgt⟩ := List.exists_cons_of_ne_nil (segGo_ne_nil rest [])
      have h0 : showGo pat rest [] false = blocksOut (shownSegs pat (g2 :: t)) := by
        have h1 := ih []
        simpa [hgt] using h1
      by_cases ha : acc.any pat = true <;>
        simp [showGo, segGo, shownSegs, h, hgt, h0, flush_block, ha, blocksOut_append,
          blocksOut]
    · have hk : (if pat l = true then true else acc.any pat) = (acc ++ [l]).any pat := by
        by_cases hp : pat l = true <;> simp [hp]
      simp only [showGo, h, if_false, hk, Bool.false_eq_true]
      rw [ih (acc ++ [l])]
      simp [segGo, h]

theorem drop_blocks_eq (pat : String → Bool) (input : List String) :
    drop_blocks pat input = blocksOut (keptSegs pat (segments input)) := by
  have h := dropGo_eq pat input []
  simpa [drop_blocks, segments] using h

theorem show_blocks_eq (pat : String → Bool) (input : List String) :
    show_blocks pat input = blocksOut (shownSegs pat (segments input)) := by
  have h := showGo_eq pat input []
  simpa [show_blocks, segments] using h

theorem keptSegs_filter (pat : String → Bool) :
    ∀ segs : List (List String),
      (keptSegs pat segs).filter (fun g => !g.isEmpty) =
        ((segs.filter (fun g => !g.isEmpty)).filter (fun g => !g.any pat)) := by
  intro segs
  induction segs with
  | nil => simp [keptSegs]
  | cons g rest ih =>
    cases rest with
    | nil =>
      cases g with
      | nil => simp [keptSegs]
      | cons a as =>
        by_cases h : (a :: as).any pat = true <;> simp [keptSegs, h]
    | cons g2 t =>
      cases g with
      | nil => simpa [keptSegs] using ih
      | cons a as =>
        by_cases h : (a :: as).any pat = true <;> simp [keptSegs, h, ih]

theorem shownSegs_filter (pat : String → Bool) :
    ∀ segs : List (List String),
      (shownSegs pat segs).filter (fun g => !g.isEmpty) =
        ((segs.filter (fun g => !g.isEmpty)).filter (fun g => g.any pat)) := by
  intro segs
  induction segs with
  | nil => simp [shownSegs]
  | cons g rest ih =>
    cases rest with
    | nil =>
      cases g with
      | nil => simp [shownSegs]
      | cons a as =>
        by_cases h : (a :: as).any pat = true <;> simp [shownSegs, h]
    | cons g2 t =>
      cases g with
      | nil => simpa [shownSegs] using ih
      | cons a as =>
        by_cases h : (a :: as).any pat = true <;> simp [shownSegs, h, ih]

theorem segGo_noSep :
    ∀ (input acc : List String), (∀ l ∈ acc, isSep l = false) →
      ∀ g ∈ segGo input acc, ∀ l ∈ g, isSep l = false := by
  intro input
  induction input with
  | nil =>
    intro acc hacc g hg
    simp [segGo] at hg
    subst hg; exact hacc
  | cons l rest ih =>
    intro acc hacc g hg
    by_cases h : isSep l = true
    · simp [segGo, h] at hg
      rcases hg with hg | hg
      · subst hg; exact hacc
      · exact ih [] (by simp) g hg
    · simp [segGo, h] at hg
      refine ih (acc ++ [l]) ?_ g hg
      intro x hx
      rcases List.mem_append.mp hx with hx | hx
      · exact hacc x hx
      · simp at hx; subst hx
        simpa using h

theorem keptSegs_subset (pat : String → Bool) :
    ∀ segs : List (List String), ∀ g ∈ keptSegs pat segs, g ∈ segs := by
  intro segs
  induction segs with
  | nil => simp [keptSegs]
  | cons g rest ih =>
    cases rest with
    | nil =>
      intro x hx
      simp only [keptSegs] at hx
      split at hx
      · simp at hx; simp [hx]
      · simp at hx
    | cons g2 t =>
      intro x hx
      simp only [keptSegs] at hx
      rcases List.mem_append.mp hx with h1 | h2
      · split at h1
        · simp at h1; simp [h1]
        · simp at h1
      · exact List.mem_cons_of_mem _ (ih x h2)

theorem shownSegs_subset (pat : String → Bool) :
    ∀ segs : List (List String), ∀ g ∈ shownSegs pat segs, g ∈ segs := by
  intro segs
  induction segs with
  | nil => simp [shownSegs]
  | cons g rest ih =>
    cases rest with
    | nil =>
      intro x hx
      simp only [shownSegs] at hx
      split at hx
      · simp at hx; simp [hx]
      · simp at hx
    | cons g2 t =>
      intro x hx
      simp only [shownSegs] at hx
      rcases List.mem_append.mp hx with h1 | h2
      · split at h1
        · simp at h1; simp [h1]
        · simp at h1
      · exact List.mem_cons_of_mem _ (ih x h2)

theorem segGo_appendData :
    ∀ (b rest acc : List String), (∀ l ∈ b, isSep l = false) →
      segGo (b ++ rest) acc = segGo rest (acc ++ b) := by
  intro b
  induction b with
  | nil => intro rest acc _; simp
  | cons c b' ih =>
    intro rest acc hb
    have hc : isSep c = false := hb c (by simp)
    have h' : ∀ l ∈ b', isSep l = false := fun l hl => hb l (by simp [hl])
    simp only [List.cons_append, segGo, hc, Bool.false_eq_true, if_false, List.append_eq]
    rw [ih rest (acc ++ [c]) h']
    simp

theorem isSep_SEP : isSep SEP = true := by decide

theorem segGo_blocksOut :
    ∀ (bs : List (List String)) (acc : List String),
      (∀ g ∈ bs, ∀ l ∈ g, isSep l = false) →
      segGo (blocksOut bs) acc = acc :: bs := by
  intro bs
  induction bs with
  | nil => intro acc _; simp [blocksOut, segGo]
  | cons b rest ih =>
    intro acc hb
    have hbb : ∀ l ∈ b, isSep l = false := hb b (by simp)
    have hrest : ∀ g ∈ rest, ∀ l ∈ g, isSep l = false :=
      fun g hg => hb g (by simp [hg])
    have : blocksOut (b :: rest) = SEP :: (b ++ blocksOut rest) := by
      simp [blocksOut]
    rw [this]
    simp only [segGo, isSep_SEP, if_true]
    rw [segGo_appendData b (blocksOut rest) [] hbb]
    simp only [List.nil_append]
    rw [ih b hrest]

theorem origBlocks_drop (pat : String → Bool) (input : List String) :
    origBlocks (drop_blocks pat input) =
      (origBlocks input).filter (fun g => !g.any pat) := by
  have hns : ∀ g ∈ keptSegs pat (segments input), ∀ l ∈ g, isSep l = false :=
    fun g hg => segGo_noSep input [] (by simp) g (keptSegs_subset pat _ g hg)
  rw [origBlocks, drop_blocks_eq, segments, segGo_blocksOut _ [] hns]
  have h2 : (([] : List String) :: keptSegs pat (segments input)).filter
      (fun g => !g.isEmpty) = (keptSegs pat (segments input)).filter (fun g => !g.isEmpty) := by
    simp
  rw [h2, keptSegs_filter]
  rfl

theorem origBlocks_show (pat : String → Bool) (input : List String) :
    origBlocks (show_blocks pat input) =
      (origBlocks input).filter (fun g => g.any pat) := by
  have hns : ∀ g ∈ shownSegs pat (segments input), ∀ l ∈ g, isSep l = false :=
    fun g hg => segGo_noSep input [] (by simp) g (shownSegs_subset pat _ g hg)
  rw [origBlocks, show_blocks_eq, segments, segGo_blocksOut _ [] hns]
  have h2 : (([] : List String) :: shownSegs pat (segments input)).filter
      (fun g => !g.isEmpty) = (shownSegs pat (segments input)).filter (fun g => !g.isEmpty) := by
    simp
  rw [h2, shownSegs_filter]
  rfl

-- ===================== lemmas: subject classifier =====================

theorem suffix_total {α : Type} {l₁ l₂ b : List α} (h1 : l₁ <:+ b) (h2 : l₂ <:+ b)
    (hle : l₁.length ≤ l₂.length) : l₁ <:+ l₂ := by
  have p1 : l₁.reverse <+: b.reverse := List.reverse_prefix.mpr h1
  have p2 : l₂.reverse <+: b.reverse := List.reverse_prefix.mpr h2
  have hp := List.prefix_of_prefix_length_le p1 p2 (by simpa using hle)
  exact List.reverse_prefix.mp hp

theorem rx_some_suffix {suf s a} (h : rxMatchSuffix suf s = some a) :
    suf.data <:+ rxBody s := by
  unfold rxMatchSuffix at h
  simp only at h
  by_cases hc :
      (suf.data.isSuffixOf (rxBody s) &&
        !((rxBody s).take ((rxBody s).length - suf.data.length)).contains '\n') = true
  · have h1 := (Bool.and_eq_true _ _).mp hc
    exact List.isSuffixOf_iff_suffix.mp h1.1
  · rw [if_neg hc] at h
    exact absurd h (by simp)

theorem rxAC {s a} (h : author_rx s = some a) : citing_rx s = none := by
  cases hC : citing_rx s with
  | none => rfl
  | some c =>
    have h1 := rx_some_suffix h
    have h2 := rx_some_suffix hC
    have hs := suffix_total h1 h2 (by decide)
    exact absurd hs (by decide)

theorem rxAR {s a} (h : author_rx s = some a) : related_rx s = none := by
  cases hR : related_rx s with
  | none => rfl
  | some r =>
    have h1 := rx_some_suffix h
    have h2 := rx_some_suffix hR
    have hs := suffix_total h1 h2 (by decide)
    exact absurd hs (by decide)

theorem rxCR {s c} (h : citing_rx s = some c) : related_rx s = none := by
  cases hR : related_rx s with
  | none => rfl
  | some r =>
    have h1 := rx_some_suffix h
    have h2 := rx_some_suffix hR
    have hs := suffix_total h1 h2 (by decide)
    exact absurd hs (by decide)

theorem note_subject_eq_spec (p : Paper) (s : String) :
    note_subject p s = note_subjectSpec p s := by
  cases hA : author_rx s with
  | some a => simp [note_subject, note_subjectSpec, hA]
  | none =>
    cases hC : citing_rx s with
    | none => simp [note_subject, note_subjectSpec, hA, hC]
    | some c =>
      have hR : related_rx s = none := rxCR hC
      simp [note_subject, note_subjectSpec, hA, hC, hR]

theorem rx_at_most_one (s : String) :
    (author_rx s).isSome.toNat + (citing_rx s).isSome.toNat + (related_rx s).isSome.toNat ≤ 1 := by
  cases hA : author_rx s with
  | some a => simp [rxAC hA, rxAR hA]
  | none =>
    cases hC : citing_rx s with
    | some c => simp [rxCR hC]
    | none => cases hR : related_rx s <;> simp

theorem note_subject_url (p : Paper) (s : String) : (note_subject p s).url = p.url := by
  unfold note_subject
  cases author_rx s <;> cases citing_rx s <;> cases related_rx s <;> simp

theorem note_subject_desc (p : Paper) (s : String) : (note_subject p s).desc = p.desc := by
  unfold note_subject
  cases author_rx s <;> cases citing_rx s <;> cases related_rx s <;> simp

theorem note_subject_author (p : Paper) (s : String) :
    (note_subject p s).author =
      (match author_rx s with | some a => insert a p.author | none => p.author) := by
  unfold note_subject
  cases author_rx s <;> cases citing_rx s <;> cases related_rx s <;> simp

theorem note_subject_citing (p : Paper) (s : String) :
    (note_subject p s).citing =
      (match author_rx s with
       | some _ => p.citing
       | none =>
         match citing_rx s with | some c => insert c p.citing | none => p.citing) := by
  unfold note_subject
  cases author_rx s <;> cases citing_rx s <;> cases related_rx s <;> simp

theorem note_subject_related (p : Paper) (s : String) :
    (note_subject p s).related =
      (match author_rx s with
       | some _ => p.related
       | none =>
         match related_rx s with | some r => insert r p.related | none => p.related) := by
  unfold note_subject
  cases author_rx s <;> cases citing_rx s <;> cases related_rx s <;> simp

-- ===================== lemmas: scraper dedup (C2) =====================

/-- The (key, description) view of the papers mapping. -/
def viewKD (papers : List (String × Paper)) : List (String × String) :=
  papers.map (fun e => (e.1, e.2.desc))

theorem viewKD_noteAt (papers : List (String × Paper)) (u subj : String) :
    viewKD (noteAt papers u subj) = viewKD papers := by
  simp only [viewKD, noteAt, List.map_map]
  refine List.map_congr_left ?_
  intro e _
  by_cases h : e.1 = u <;> simp [h, note_subject_desc]

theorem viewKD_keys (papers : List (String × Paper)) :
    (viewKD papers).map Prod.fst = papers.map Prod.fst := by
  simp [viewKD]

theorem hasKey_viewKD (papers : List (String × Paper)) (u : String) :
    hasKey papers u = (viewKD papers).any (fun e => e.1 == u) := by
  unfold hasKey viewKD
  induction papers with
  | nil => rfl
  | cons e rest ih => simp only [List.map_cons, List.any_cons, ih]

theorem addObs_pair (v : List (String × String)) (u d : String) :
    addObs v (u, d) = if v.any (fun e => e.1 == u) then v else v ++ [(u, d)] := rfl

theorem viewKD_run :
    ∀ (evs : List Ev) (st : SState),
      viewKD (runFrom st evs).papers =
        (obsFrom st.pending_url evs).foldl addObs (viewKD st.papers) := by
  intro evs
  induction evs with
  | nil => intro st; simp [runFrom, obsFrom]
  | cons ev r ih =>
    intro st
    have hstep : runFrom st (ev :: r) = runFrom (stepEv st ev) r := by
      simp [runFrom]
    rw [hstep]
    cases ev with
    | starttag u =>
      cases u with
      | none =>
        have h1 := ih st
        simpa [stepEv, handle_starttag, obsFrom] using h1
      | some u =>
        have h1 := ih { st with pending_url := some u }
        simpa [stepEv, handle_starttag, obsFrom] using h1
    | endtag =>
      cases hpu : st.pending_url with
      | none =>
        have h1 := ih st
        rw [hpu] at h1
        simpa [stepEv, handle_endtag, hpu, obsFrom] using h1
      | some u =>
        have h1 := ih { st with pending_url := none }
        simpa [stepEv, handle_endtag, hpu, obsFrom] using h1
    | setSubject s =>
      have h1 := ih { st with pending_subject := some s }
      simpa [stepEv, set_subject, obsFrom] using h1
    | data d =>
      cases hpu : st.pending_url with
      | none =>
        have h1 := ih st
        rw [hpu] at h1
        simpa [stepEv, handle_data, hpu, obsFrom] using h1
      | some u =>
        have hkv : (viewKD st.papers).any (fun e => e.1 == u) = hasKey st.papers u :=
          (hasKey_viewKD st.papers u).symm
        have hview : viewKD (handle_data st d).papers = addObs (viewKD st.papers) (u, d) := by
          have hv1 : viewKD (handle_data st d).papers =
              viewKD (if hasKey st.papers u then st.papers
                else st.papers ++ [(u, Paper.init u d)]) := by
            cases hps : st.pending_subject with
            | none => simp [handle_data, hpu, hps]
            | some subj => simp [handle_data, hpu, hps, viewKD_noteAt]
          rw [hv1, addObs_pair, hkv]
          by_cases hk : hasKey st.papers u = true
          · simp [hk]
          · have hk' : hasKey st.papers u = false := by simpa using hk
            simp [hk', viewKD, Paper.init]
        have hpu' : (handle_data st d).pending_url = some u := by
          simp [handle_data, hpu]
          cases st.pending_subject <;> by_cases hk : hasKey st.papers u = true <;> simp [hk]
        have h1 := ih (handle_data st d)
        rw [hpu'] at h1
        rw [show stepEv st (Ev.data d) = handle_data st d from rfl, h1, hview]
        simp [obsFrom, hpu]

theorem addObs_keys_nodup :
    ∀ (obs : List (String × String)) (v : List (String × String)),
      (v.map Prod.fst).Nodup → ((obs.foldl addObs v).map Prod.fst).Nodup := by
  intro obs
  induction obs with
  | nil => intro v hv; simpa using hv
  | cons o r ih =>
    intro v hv
    rw [List.foldl_cons]
    refine ih _ ?_
    by_cases h : v.any (fun e => e.1 == o.1) = true
    · simpa [addObs, h] using hv
    · have hnot : o.1 ∉ v.map Prod.fst := by
        intro hmem
        obtain ⟨e, he, hfst⟩ := List.mem_map.mp hmem
        have : v.any (fun e => e.1 == o.1) = true :=
          List.any_eq_true.mpr ⟨e, he, by simp [hfst]⟩
        exact h this
      simp only [addObs, h, if_false, Bool.false_eq_true, List.map_append]
      refine List.Nodup.append hv (by simp) ?_
      intro a ha hb
      simp at hb
      subst hb
      exact hnot ha

theorem addObs_keys :
    ∀ (obs : List (String × String)) (v : List (String × String)),
      (obs.foldl addObs v).map Prod.fst =
        obs.foldl (fun ks o => if ks.any (fun k => k == o.1) then ks else ks ++ [o.1])
          (v.map Prod.fst) := by
  intro obs
  induction obs with
  | nil => intro v; simp
  | cons o r ih =>
    intro v
    rw [List.foldl_cons, List.foldl_cons, ih]
    congr 1
    have hany : (v.map Prod.fst).any (fun k => k == o.1) = v.any (fun e => e.1 == o.1) := by
      induction v with
      | nil => rfl
      | cons e rest ihv => simp only [List.map_cons, List.any_cons, ihv]
    by_cases h : v.any (fun e => e.1 == o.1) = true <;>
      simp [addObs, h, hany]

theorem addObs_find? :
    ∀ (obs : List (String × String)) (v : List (String × String)) (u : String),
      ((obs.foldl addObs v).find? (fun e => e.1 == u)).map Prod.snd =
        ((v.find? (fun e => e.1 == u)).map Prod.snd).or
          (((obs.filter (fun o => o.1 == u)).map Prod.snd).head?) := by
  intro obs
  induction obs with
  | nil => intro v u; simp
  | cons o r ih =>
    intro v u
    rw [List.foldl_cons, ih]
    by_cases hv : v.any (fun e => e.1 == o.1) = true
    · have haddv : addObs v o = v := by simp [addObs, hv]
      rw [haddv]
      by_cases ho : (o.1 == u) = true
      · have hu : o.1 = u := by simpa using ho
        have hsome : (v.find? (fun e => e.1 == u)).isSome := by
          obtain ⟨e, he, hbeq⟩ := List.any_eq_true.mp hv
          refine List.find?_isSome.mpr ⟨e, he, ?_⟩
          simpa [hu] using hbeq
        obtain ⟨e, he⟩ := Option.isSome_iff_exists.mp hsome
        simp [List.filter_cons, ho, he]
      · simp [List.filter_cons, ho]
    · have haddv : addObs v o = v ++ [o] := by simp [addObs, hv]
      rw [haddv]
      by_cases ho : (o.1 == u) = true
      · have hu : o.1 = u := by simpa using ho
        have hnone : v.find? (fun e => e.1 == u) = none := by
          rw [List.find?_eq_none]
          intro e he hbeq
          have : v.any (fun e => e.1 == o.1) = true :=
            List.any_eq_true.mpr ⟨e, he, by simpa [hu] using hbeq⟩
          exact hv this
        simp [List.find?_append, hnone, List.filter_cons, ho]
      · have hnone1 : List.find? (fun e => e.1 == u) [o] = none := by
          simp [List.find?, ho]
        simp [List.find?_append, hnone1, List.filter_cons, ho]

theorem noteAt_urls {papers : List (String × Paper)} (u subj : String)
    (h : ∀ e ∈ papers, e.2.url = e.1) : ∀ e ∈ noteAt papers u subj, e.2.url = e.1 := by
  intro e he
  obtain ⟨e0, he0, heq⟩ := List.mem_map.mp he
  by_cases hk : (e0.1 == u) = true <;> simp [hk] at heq <;> rw [← heq]
  · simpa [note_subject_url] using h e0 he0
  · exact h e0 he0

theorem papers_urls :
    ∀ (evs : List Ev) (st : SState), (∀ e ∈ st.papers, e.2.url = e.1) →
      ∀ e ∈ (runFrom st evs).papers, e.2.url = e.1 := by
  intro evs
  induction evs with
  | nil => intro st h; simpa [runFrom] using h
  | cons ev r ih =>
    intro st h
    have hstep : runFrom st (ev :: r) = runFrom (stepEv st ev) r := by simp [runFrom]
    rw [hstep]
    refine ih _ ?_
    cases ev with
    | starttag u => cases u <;> simpa [stepEv, handle_starttag] using h
    | endtag =>
      by_cases hpu : st.pending_url.isSome <;> simpa [stepEv, handle_endtag, hpu] using h
    | setSubject s => simpa [stepEv, set_subject] using h
    | data d =>
      cases hpu : st.pending_url with
      | none => simpa [stepEv, handle_data, hpu] using h
      | some u =>
        have hpapers1 : ∀ e ∈ (if hasKey st.papers u then st.papers
            else st.papers ++ [(u, Paper.init u d)]), e.2.url = e.1 := by
          by_cases hk : hasKey st.papers u = true
          · simpa [hk] using h
          · simp only [hk, if_false, Bool.false_eq_true]
            intro e he
            rcases List.mem_append.mp he with he | he
            · exact h e he
            · simp at he
              subst he
              rfl
        cases hps : st.pending_subject with
        | none => simpa [stepEv, handle_data, hpu, hps] using hpapers1
        | some subj =>
          have := noteAt_urls u subj hpapers1
          simpa [stepEv, handle_data, hpu, hps] using this

-- ===================== lemmas: triple runs (C8) =====================

theorem find?_of_mem_nodup :
    ∀ (papers : List (String × Paper)) (u : String) (p : Paper),
      (papers.map Prod.fst).Nodup → (u, p) ∈ papers →
      papers.find? (fun e => e.1 == u) = some (u, p) := by
  intro papers
  induction papers with
  | nil => intro u p _ h; simp at h
  | cons e rest ih =>
    intro u p hnd hmem
    have hnd' : (e.1 :: rest.map Prod.fst).Nodup := by simpa using hnd
    rcases List.mem_cons.mp hmem with he | he
    · rw [← he]
      simp [List.find?]
    · have hkey : u ∈ rest.map Prod.fst := List.mem_map.mpr ⟨(u, p), he, rfl⟩
      have hne : ¬(e.1 == u) = true := by
        intro hb
        have hb' : e.1 = u := by simpa using hb
        exact (List.nodup_cons.mp hnd').1 (hb' ▸ hkey)
      simp only [List.find?, hne, Bool.false_eq_true]
      exact ih u p (List.nodup_cons.mp hnd').2 he

theorem hasKey_isSome (P : List (String × Paper)) (u : String) :
    hasKey P u = (P.find? (fun e => e.1 == u)).isSome := by
  by_cases h : hasKey P u = true
  · obtain ⟨e, he, hb⟩ := List.any_eq_true.mp h
    rw [h]
    exact (List.find?_isSome.mpr ⟨e, he, hb⟩).symm
  · have h' : hasKey P u = false := by simpa using h
    rw [h']
    have hnone : P.find? (fun e => e.1 == u) = none := by
      rw [List.find?_eq_none]
      intro e he hb
      exact h (List.any_eq_true.mpr ⟨e, he, hb⟩)
    rw [hnone]
    rfl

theorem processTriple_eq (st : SState) (t : Triple) :
    processTriple st t = ⟨updT st.papers t, some t.1, none⟩ := rfl

theorem foldTriples_papers :
    ∀ (ts : List Triple) (st : SState),
      (ts.foldl processTriple st).papers = ts.foldl updT st.papers := by
  intro ts
  induction ts with
  | nil => intro st; rfl
  | cons t r ih =>
    intro st
    rw [List.foldl_cons, List.foldl_cons, ih, processTriple_eq]

theorem noteAt_find?_eq (papers : List (String × Paper)) (u subj : String) :
    (noteAt papers u subj).find? (fun e => e.1 == u) =
      (papers.find? (fun e => e.1 == u)).map (fun e => (e.1, note_subject e.2 subj)) := by
  induction papers with
  | nil => rfl
  | cons e rest ih =>
    by_cases hb : (e.1 == u) = true
    · have hb' : e.1 = u := by simpa using hb
      simp [noteAt, List.find?, hb', hb]
    · have hb' : (e.1 == u) = false := by simpa using hb
      simp only [noteAt, List.map_cons, hb', Bool.false_eq_true, if_false, List.find?, hb]
      simpa [noteAt] using ih

theorem noteAt_find?_other (papers : List (String × Paper)) (u subj w : String)
    (hne : u ≠ w) :
    (noteAt papers u subj).find? (fun e => e.1 == w) = papers.find? (fun e => e.1 == w) := by
  induction papers with
  | nil => rfl
  | cons e rest ih =>
    by_cases hb : (e.1 == u) = true
    · have hb' : e.1 = u := by simpa using hb
      have hw : (e.1 == w) = false := by simp [hb', hne]
      simp only [noteAt, List.map_cons, hb, if_true, List.find?, hw]
      simpa [noteAt] using ih
    · have hb' : (e.1 == u) = false := by simpa using hb
      by_cases hw : (e.1 == w) = true
      · simp [noteAt, List.find?, hb', hw]
      · have hw' : (e.1 == w) = false := by simpa using hw
        simp only [noteAt, List.map_cons, hb', Bool.false_eq_true, if_false, List.find?, hw']
        simpa [noteAt] using ih

/-- The subjects of the triples that reference a given url, in order. -/
def subjectsFor (u : String) (ts : List Triple) : List String :=
  (ts.filter (fun t => t.2.1 == u)).map (fun t => t.1)

theorem applySubs_nil (p : Paper) : applySubs p [] = p := rfl

theorem applySubs_cons (p : Paper) (s : String) (subs : List String) :
    applySubs p (s :: subs) = applySubs (note_subject p s) subs := rfl

theorem foldT_find? :
    ∀ (ts : List Triple) (P : List (String × Paper)) (u : String),
      ((ts.foldl updT P).find? (fun e => e.1 == u)).map Prod.snd =
        (match (P.find? (fun e => e.1 == u)).map Prod.snd with
         | some p => some (applySubs p (subjectsFor u ts))
         | none =>
           match ts.filter (fun t => t.2.1 == u) with
           | [] => none
           | t0 :: rest =>
             some (applySubs (Paper.init u t0.2.2) (t0.1 :: rest.map (fun t => t.1)))) := by
  intro ts
  induction ts with
  | nil =>
    intro P u
    cases hf : (P.find? (fun e => e.1 == u)) with
    | none => simp [hf, List.foldl_nil]
    | some e => simp [hf, List.foldl_nil, subjectsFor, applySubs_nil]
  | cons t r ih =>
    intro P u
    obtain ⟨s, u', d⟩ := t
    rw [List.foldl_cons, ih]
    by_cases hu : (u' == u) = true
    · have hu' : u' = u := by simpa using hu
      subst hu'
      by_cases hk : hasKey P u' = true
      · have hsome : (P.find? (fun e => e.1 == u')).isSome := by
          rw [← hasKey_isSome]; exact hk
        obtain ⟨e, he⟩ := Option.isSome_iff_exists.mp hsome
        have hupd : ((updT P (s, u', d)).find? (fun e => e.1 == u')).map Prod.snd =
            some (note_subject e.2 s) := by
          simp [updT, hk, noteAt_find?_eq, he]
        rw [hupd]
        simp only [he, Option.map_some]
        have hfil : List.filter (fun t => t.2.1 == u') ((s, u', d) :: r) =
            (s, u', d) :: List.filter (fun t => t.2.1 == u') r := by
          simp [List.filter_cons]
        simp [subjectsFor, hfil, applySubs_cons]
      · have hnone : P.find? (fun e => e.1 == u') = none := by
          have h1 := hasKey_isSome P u'
          have hk' : hasKey P u' = false := by simpa using hk
          rw [hk'] at h1
          exact Option.not_isSome_iff_eq_none.mp (by simp [← h1])
        have hupd : ((updT P (s, u', d)).find? (fun e => e.1 == u')).map Prod.snd =
            some (note_subject (Paper.init u' d) s) := by
          have hk' : hasKey P u' = false := by simpa using hk
          simp [updT, hk', noteAt_find?_eq, List.find?_append, hnone, List.find?]
        rw [hupd]
        simp only [hnone, Option.map_none]
        have hfil : List.filter (fun t => t.2.1 == u') ((s, u', d) :: r) =
            (s, u', d) :: List.filter (fun t => t.2.1 == u') r := by
          simp [List.filter_cons]
        simp [hfil, applySubs_cons, subjectsFor]
    · have hu2 : u' ≠ u := by simpa using hu
      have hupd : (updT P (s, u', d)).find? (fun e => e.1 == u) =
          P.find? (fun e => e.1 == u) := by
        by_cases hk : hasKey P u' = true
        · simp [updT, hk, noteAt_find?_other _ _ _ _ hu2]
        · have hk' : hasKey P u' = false := by simpa using hk
          have h1 : List.find? (fun e => e.1 == u) [(u', Paper.init u' d)] = none := by
            simp [List.find?, hu]
          simp [updT, hk', noteAt_find?_other _ _ _ _ hu2, List.find?_append, h1]
      rw [hupd]
      have hfil : List.filter (fun t => t.2.1 == u) ((s, u', d) :: r) =
          List.filter (fun t => t.2.1 == u) r := by
        simp [List.filter_cons, hu]
      have hsub : subjectsFor u ((s, u', d) :: r) = subjectsFor u r := by
        simp [subjectsFor, hfil]
      simp only [hfil, hsub]

theorem applySubs_fields :
    ∀ (subs : List String) (p : Paper),
      (applySubs p subs).url = p.url ∧
      (applySubs p subs).desc = p.desc ∧
      (applySubs p subs).author = p.author ∪ (subs.filterMap author_rx).toFinset ∧
      (applySubs p subs).citing = p.citing ∪ (subs.filterMap citing_rx).toFinset ∧
      (applySubs p subs).related = p.related ∪ (subs.filterMap related_rx).toFinset := by
  intro subs
  induction subs with
  | nil => intro p; simp [applySubs_nil]
  | cons s r ih =>
    intro p
    rw [applySubs_cons]
    obtain ⟨hu, hd, ha, hc, hr⟩ := ih (note_subject p s)
    refine ⟨by rw [hu, note_subject_url], by rw [hd, note_subject_desc], ?_, ?_, ?_⟩
    · rw [ha, note_subject_author]
      cases hA : author_rx s with
      | some a => simp [List.filterMap_cons, hA, Finset.insert_union]
      | none => simp [List.filterMap_cons, hA]
    · rw [hc, note_subject_citing]
      cases hA : author_rx s with
      | some a =>
        have hC : citing_rx s = none := rxAC hA
        simp [List.filterMap_cons, hA, hC]
      | none =>
        cases hC : citing_rx s with
        | some c => simp [List.filterMap_cons, hC, Finset.insert_union]
        | none => simp [List.filterMap_cons, hC]
    · rw [hr, note_subject_related]
      cases hA : author_rx s with
      | some a =>
        have hR : related_rx s = none := rxAR hA
        simp [List.filterMap_cons, hA, hR]
      | none =>
        cases hR : related_rx s with
        | some rr => simp [List.filterMap_cons, hR, Finset.insert_union]
        | none => simp [List.filterMap_cons, hR]

theorem perm_toFinset {α : Type} [DecidableEq α] {l₁ l₂ : List α} (h : List.Perm l₁ l₂) :
    l₁.toFinset = l₂.toFinset :=
  Finset.ext fun a => by simp [h.mem_iff]

-- ===================== lemmas: the filtering dump (C7) =====================

theorem infixCheck_iff (sub : List Char) :
    ∀ l : List Char, infixCheck sub l = true ↔ sub <:+: l := by
  intro l
  induction l with
  | nil =>
    cases sub <;> simp [infixCheck]
  | cons c rest ih =>
    simp [infixCheck, ih, List.infix_cons_iff]

theorem containsSub_iff (s sub : String) : containsSub s sub = true ↔ sub.data <:+: s.data :=
  infixCheck_iff sub.data s.data

theorem scraper_dump_eq (papers : List (String × Paper)) (nonfree topic : List String) :
    scraper_dump papers nonfree topic =
      (papers.filter (fun e => !excludedB nonfree topic e)).map Prod.snd := by
  have hgo : ∀ (ps : List (String × Paper)) (acc : List Paper),
      ps.foldl
        (fun acc e =>
          if !(nonfree.any (fun b => containsSub e.1 b)) then
            if !(topic.any (fun t => containsSub (lowerStr e.2.desc) t)) then acc ++ [e.2]
            else acc
          else acc)
        acc = acc ++ (ps.filter (fun e => !excludedB nonfree topic e)).map Prod.snd := by
    intro ps
    induction ps with
    | nil => intro acc; simp
    | cons e rest ih =>
      intro acc
      rw [List.foldl_cons, ih]
      by_cases h1 : nonfree.any (fun b => containsSub e.1 b) = true
      · simp [h1, excludedB, List.filter_cons]
      · by_cases h2 : topic.any (fun t => containsSub (lowerStr e.2.desc) t) = true
        · simp [h1, h2, excludedB, List.filter_cons]
        · simp [h1, h2, excludedB, List.filter_cons]
  have h := hgo papers []
  simpa [scraper_dump] using h

-- ===================== claim theorems =====================

theorem writeStates_file (orig out : List String) (k : Nat) (hk : k ≤ out.length) :
    ∀ s ∈ writeStates orig out k,
      ∃ i, i ≤ out.length ∧ s.file = some (out.take i) := by
  intro s hs
  obtain ⟨i, hi, hsi⟩ := List.mem_map.mp hs
  have hi' : i ≤ k := Nat.lt_succ_iff.mp (List.mem_range.mp hi)
  exact ⟨i, le_trans hi' hk, by rw [← hsi]⟩

/-- Claim C1, counterexample: during a `--delete` rewrite the original path
does hold a partially written file.  On the file `["---","a","---","b"]` with
a predicate matching `"b"` and an exception delivered after one written line,
the trace of `inplace` contains an observable state in which the original
path holds neither the original content nor the fully rewritten content (it
holds the one-line prefix `["---"]` of the new content, the backup holding
the original) — even though the rollback then restores the original. -/
theorem c1_counterexample :
    ¬ (∀ s ∈ (inplaceTrace ["---", "a", "---", "b"] (fun l => l == "b") none (some 1)).1,
        s.file = some ["---", "a", "---", "b"] ∨
        s.file = some (drop_blocks (fun l => l == "b") ["---", "a", "---", "b"])) := by
  decide

/-- Claim C1, amended: on any failure injected after `k` written lines the
rollback deletes the new file, renames the backup back (so the final state
holds exactly the original content and no backup) and re-raises; on success
the final state holds the fully rewritten content and no backup.  But while
the rewrite runs, the original path holds the partially written new file: at
every instant it holds nothing, the original content, or some prefix of the
new content — the no-partial-file guarantee holds only at termination. -/
theorem c1_amended (orig : List String) (pat : String → Bool)
    (bak0 : Option (List String)) (k : Nat) :
    (inplaceTrace orig pat bak0 (some k)).1.getLast? = some (FS.mk (some orig) none) ∧
    (inplaceTrace orig pat bak0 (some k)).2 = true ∧
    (inplaceTrace orig pat bak0 none).1.getLast? =
      some (FS.mk (some (drop_blocks pat orig)) none) ∧
    (inplaceTrace orig pat bak0 none).2 = false ∧
    (∀ s ∈ (inplaceTrace orig pat bak0 (some k)).1,
      s.file = none ∨ s.file = some orig ∨
      ∃ i, i ≤ (drop_blocks pat orig).length ∧
        s.file = some ((drop_blocks pat orig).take i)) ∧
    (∀ s ∈ (inplaceTrace orig pat bak0 none).1,
      s.file = none ∨ s.file = some orig ∨
      ∃ i, i ≤ (drop_blocks pat orig).length ∧
        s.file = some ((drop_blocks pat orig).take i)) := by
  refine ⟨?_, rfl, ?_, rfl, ?_, ?_⟩
  · show (_ ++ writeStates _ _ _ ++ [FS.mk none (some orig), FS.mk (some orig) none]).getLast? = _
    rw [show ∀ (x : List FS) (a b : FS), x ++ [a, b] = (x ++ [a]) ++ [b] from
      fun x a b => by simp, List.getLast?_concat]
  · show (_ ++ writeStates _ _ _ ++ [FS.mk (some (drop_blocks pat orig)) none]).getLast? = _
    rw [List.getLast?_concat]
  · intro s hs
    simp only [inplaceTrace, List.mem_append, List.mem_cons, List.mem_singleton,
      List.not_mem_nil] at hs
    rcases hs with ((hs | hs | hs | hs) | hs) | (hs | hs | hs)
    · subst hs; exact Or.inr (Or.inl rfl)
    · subst hs; exact Or.inr (Or.inl rfl)
    · subst hs; exact Or.inl rfl
    · simp at hs
    · obtain ⟨i, hi, hsi⟩ :=
        writeStates_file orig (drop_blocks pat orig) _ (Nat.min_le_right _ _) s hs
      exact Or.inr (Or.inr ⟨i, hi, hsi⟩)
    · subst hs; exact Or.inl rfl
    · subst hs; exact Or.inr (Or.inl rfl)
    · exact hs.elim
  · intro s hs
    simp only [inplaceTrace, List.mem_append, List.mem_cons, List.mem_singleton,
      List.not_mem_nil] at hs
    rcases hs with ((hs | hs | hs | hs) | hs) | (hs | hs)
    · subst hs; exact Or.inr (Or.inl rfl)
    · subst hs; exact Or.inr (Or.inl rfl)
    · subst hs; exact Or.inl rfl
    · simp at hs
    · obtain ⟨i, hi, hsi⟩ :=
        writeStates_file orig (drop_blocks pat orig) _ (le_refl _) s hs
      exact Or.inr (Or.inr ⟨i, hi, hsi⟩)
    · subst hs
      exact Or.inr (Or.inr ⟨(drop_blocks pat orig).length, le_refl _, by simp⟩)
    · exact hs.elim

/-- Claim C1, witness for the amended theorem at a concrete input: failing
after zero written lines on the file `["---","a"]`, the final state holds
the original content with no backup, and the failure propagates. -/
theorem c1_witness :
    (inplaceTrace ["---", "a"] (fun _ => false) none (some 0)).1.getLast? =
      some (FS.mk (some ["---", "a"]) none) ∧
    (inplaceTrace ["---", "a"] (fun _ => false) none (some 0)).2 = true :=
  ⟨(c1_amended ["---", "a"] (fun _ => false) none 0).1,
   (c1_amended ["---", "a"] (fun _ => false) none 0).2.1⟩

theorem viewKD_find? (papers : List (String × Paper)) (u : String) :
    (viewKD papers).find? (fun e => e.1 == u) =
      (papers.find? (fun e => e.1 == u)).map (fun e => (e.1, e.2.desc)) := by
  induction papers with
  | nil => rfl
  | cons e rest ih =>
    by_cases hb : (e.1 == u) = true
    · simp [viewKD, List.find?, hb]
    · have hb' : (e.1 == u) = false := by simpa using hb
      simp only [viewKD, List.map_cons, List.find?, hb']
      simpa [viewKD] using ih

/-- Claim C2: over any event sequence, the url → Record mapping has exactly
one entry per distinct url observed in a data event with a pending url — its
keys are without duplicates and are the observed urls in first-occurrence
order — and each Record stores its own url and, as description, the first
text observed for that url (so later observations never change it, and the
description depends only on the observations of that url, not on the order
of unrelated urls). -/
theorem c2 (evs : List Ev) :
    ((runEvents evs).papers.map Prod.fst).Nodup ∧
    (runEvents evs).papers.map Prod.fst = firstKeys (obsFrom none evs) ∧
    ∀ u p, (u, p) ∈ (runEvents evs).papers →
      p.url = u ∧
      some p.desc =
        (((obsFrom none evs).filter (fun o => o.1 == u)).map Prod.snd).head? := by
  have hview : viewKD (runEvents evs).papers = (obsFrom none evs).foldl addObs [] := by
    have h := viewKD_run evs initialScraper
    simpa [initialScraper, viewKD, runEvents] using h
  have hkeys : (runEvents evs).papers.map Prod.fst = ((obsFrom none evs).foldl addObs []).map Prod.fst := by
    rw [← viewKD_keys, hview]
  have hnd : ((runEvents evs).papers.map Prod.fst).Nodup := by
    rw [hkeys]
    exact addObs_keys_nodup (obsFrom none evs) [] (by simp)
  refine ⟨hnd, ?_, ?_⟩
  · rw [hkeys]
    have h := addObs_keys (obsFrom none evs) []
    simpa [firstKeys] using h
  · intro u p hmem
    refine ⟨papers_urls evs initialScraper (by simp [initialScraper]) (u, p) hmem, ?_⟩
    have hf : (runEvents evs).papers.find? (fun e => e.1 == u) = some (u, p) :=
      find?_of_mem_nodup _ u p hnd hmem
    have h1 : ((viewKD (runEvents evs).papers).find? (fun e => e.1 == u)).map Prod.snd =
        some p.desc := by
      rw [viewKD_find?, hf]
      rfl
    have h2 := addObs_find? (obsFrom none evs) [] u
    rw [← hview] at h2
    rw [h1] at h2
    simpa using h2

/-- Claim C2, witness: on the concrete run that observes url `"u"` first with
text `"d1"` and then with `"d2"`, the mapping holds the Record
`Paper.init "u" "d1"`, whose url is `"u"` and whose description is the first
observation. -/
theorem c2_witness :
    (Paper.init "u" "d1").url = "u" ∧
    some (Paper.init "u" "d1").desc =
      (((obsFrom none [Ev.starttag (some "u"), Ev.data "d1", Ev.endtag,
          Ev.starttag (some "u"), Ev.data "d2"]).filter
            (fun o => o.1 == "u")).map Prod.snd).head? :=
  (c2 [Ev.starttag (some "u"), Ev.data "d1", Ev.endtag,
      Ev.starttag (some "u"), Ev.data "d2"]).2.2
    "u" (Paper.init "u" "d1") (by decide)

/-- Claim C3, counterexample: the boundary test is `line.startswith(SEP)`,
not equality — the line `"---x"` begins with `"---"` but is not equal to it,
yet `drop_blocks` treats it as a block boundary: with a never-matching
pattern it rewrites the one-line file `["---x"]` to `["---"]`, losing the
`x`, while the exact-equality segmenter of the spec's words keeps the line
as block content. -/
theorem c3_counterexample :
    isSep "---x" = true ∧ "---x" ≠ SEP ∧
    drop_blocks (fun _ => false) ["---x"] = ["---"] ∧
    drop_blocksExact (fun _ => false) ["---x"] = ["---", "---x"] := by
  decide

/-- Claim C3, amended: in both show mode and delete mode the segmenter
treats a line as a block boundary iff the line, stripped of its trailing
newline, merely starts with `"---"` (a line that begins with `"---"` and has
further content is also a boundary): both loops are exactly flushing the
segments delimited by `isSep`, the `startswith` test. -/
theorem c3_amended (pat : String → Bool) (input : List String) :
    show_blocks pat input = blocksOut (shownSegs pat (segments input)) ∧
    drop_blocks pat input = blocksOut (keptSegs pat (segments input)) :=
  ⟨show_blocks_eq pat input, drop_blocks_eq pat input⟩

/-- Claim C4 (code bug): delete mode does emit an empty block.  On the file
`"---\na\n"` with a pattern matching nothing, the first separator line is
flushed with `keep = True` and an empty accumulator, so `flush_block` writes
a bare separator line: the output `["---", "---", "a"]` starts with an empty
block (a separator followed by zero content lines).  Show mode on the same
file emits no empty block.  The end-of-input guard `if len(lines) > 0`
shows the emission is a slip, not intent. -/
theorem c4_eval :
    flush_block true [] = [SEP] ∧
    drop_blocks (fun _ => false) ["---", "a"] = ["---", "---", "a"] ∧
    [] ∈ keptSegs (fun _ => false) (segments ["---", "a"]) ∧
    show_blocks (fun _ => false) ["---", "a"] = [] := by
  decide

/-- Claim C5: for every pattern and file, the blocks printed by `--show` are
exactly the original blocks in which some line matches, the blocks remaining
after `--delete` are exactly those in which no line matches, and together
they partition the original blocks — no block in both, none omitted. -/
theorem c5 (pat : String → Bool) (input : List String) :
    origBlocks (show_blocks pat input) = (origBlocks input).filter (fun b => b.any pat) ∧
    origBlocks (drop_blocks pat input) = (origBlocks input).filter (fun b => !b.any pat) ∧
    List.Perm (origBlocks (show_blocks pat input) ++ origBlocks (drop_blocks pat input))
      (origBlocks input) ∧
    ∀ b, b ∈ origBlocks (show_blocks pat input) → b ∉ origBlocks (drop_blocks pat input) := by
  refine ⟨origBlocks_show pat input, origBlocks_drop pat input, ?_, ?_⟩
  · rw [origBlocks_show, origBlocks_drop]
    exact List.filter_append_perm _ _
  · intro b hb hb2
    rw [origBlocks_show pat input] at hb
    rw [origBlocks_drop pat input] at hb2
    have h1 := (List.mem_filter.mp hb).2
    have h2 := (List.mem_filter.mp hb2).2
    rw [h1] at h2
    simp at h2

/-- Claim C5, witness: on the file `["---","a","---","b"]` with the pattern
matching `"a"`, the block `["a"]` is shown and is not among the blocks left
by the delete run. -/
theorem c5_witness :
    ["a"] ∈ origBlocks (show_blocks (fun l => l == "a") ["---", "a", "---", "b"]) ∧
    ["a"] ∉ origBlocks (drop_blocks (fun l => l == "a") ["---", "a", "---", "b"]) :=
  ⟨by decide,
   (c5 (fun l => l == "a") ["---", "a", "---", "b"]).2.2.2 ["a"] (by decide)⟩

/-- Claim C6 (code bug): a `--delete` run whose pattern matches no line does
not leave the file byte-identical.  On the file `"---\na\n"` the rewrite
produces `"---\n---\na\n"`: the leading separator is flushed with an empty
accumulator and `keep = True`, prepending a bare separator line, so every
no-match delete run grows the file by one line. -/
theorem c6_eval :
    render (drop_blocks (fun _ => false) (pyLines "---\na\n")) = "---\n---\na\n" ∧
    render (drop_blocks (fun _ => false) (pyLines "---\na\n")) ≠ "---\na\n" := by
  decide

/-- Claim C7: the dump serializes a Record iff no publisher-blacklist
substring is literally contained in its url and no topic-blacklist substring
is contained in its case-folded description; the survivors are emitted in
mapping iteration order (the output is exactly the order-preserving filter
of the mapping). -/
theorem c7 (papers : List (String × Paper)) (nonfree topic : List String) :
    scraper_dump papers nonfree topic =
      (papers.filter (fun e => !excludedB nonfree topic e)).map Prod.snd ∧
    ∀ e : String × Paper,
      excludedB nonfree topic e = true ↔
        ((∃ b ∈ nonfree, b.data <:+: e.1.data) ∨
          (∃ t ∈ topic, t.data <:+: (lowerStr e.2.desc).data)) := by
  refine ⟨scraper_dump_eq papers nonfree topic, ?_⟩
  intro e
  simp [excludedB, List.any_eq_true, containsSub_iff]

/-- Claim C8: processing one {set subject; parse fragment} sequence per
(subject, url, description) triple, the final Record contents at every url —
its url and three name sets — depend only on the multiset of triples, not on
their order; only the description is order-dependent: it is the description
candidate of the first triple processed for that url. -/
theorem c8 (ts ts' : List Triple) (hp : List.Perm ts ts') (u : String) :
    (lookupPaper (runTriples ts).papers u).map
        (fun p => (p.url, p.author, p.citing, p.related)) =
      (lookupPaper (runTriples ts').papers u).map
        (fun p => (p.url, p.author, p.citing, p.related)) ∧
    (lookupPaper (runTriples ts).papers u).map Paper.desc =
      ((ts.filter (fun t => t.2.1 == u)).map (fun t => t.2.2)).head? := by
  have hkey : ∀ zs : List Triple,
      lookupPaper (runTriples zs).papers u =
        (match zs.filter (fun t => t.2.1 == u) with
         | [] => none
         | t0 :: rest =>
           some (applySubs (Paper.init u t0.2.2) (t0.1 :: rest.map (fun t => t.1)))) := by
    intro zs
    have h1 : (runTriples zs).papers = zs.foldl updT [] := foldTriples_papers zs initialScraper
    have h2 := foldT_find? zs [] u
    unfold lookupPaper
    rw [h1]
    simpa [List.find?] using h2
  have hk1 := hkey ts
  have hk2 := hkey ts'
  have hpf : List.Perm (ts.filter (fun t => t.2.1 == u)) (ts'.filter (fun t => t.2.1 == u)) :=
    hp.filter _
  constructor
  · cases hf : ts.filter (fun t => t.2.1 == u) with
    | nil =>
      have hf' : ts'.filter (fun t => t.2.1 == u) = [] := by
        rw [hf] at hpf
        exact (hpf.symm).eq_nil
      rw [hf] at hk1
      rw [hf'] at hk2
      rw [hk1, hk2]
    | cons t0 rest =>
      have hne' : ts'.filter (fun t => t.2.1 == u) ≠ [] := by
        intro h0
        rw [hf, h0] at hpf
        exact absurd hpf.eq_nil (by simp)
      obtain ⟨t0', rest', hf'⟩ := List.exists_cons_of_ne_nil hne'
      rw [hf] at hk1
      rw [hf'] at hk2
      rw [hk1, hk2]
      simp only [Option.map_some']
      have hm1 : t0.1 :: rest.map (fun t => t.1) =
          (ts.filter (fun t => t.2.1 == u)).map (fun t => t.1) := by
        rw [hf, List.map_cons]
      have hm2 : t0'.1 :: rest'.map (fun t => t.1) =
          (ts'.filter (fun t => t.2.1 == u)).map (fun t => t.1) := by
        rw [hf', List.map_cons]
      have hsubs : List.Perm ((ts.filter (fun t => t.2.1 == u)).map (fun t => t.1))
          ((ts'.filter (fun t => t.2.1 == u)).map (fun t => t.1)) := hpf.map _
      obtain ⟨hu1, hd1, ha1, hc1, hr1⟩ :=
        applySubs_fields (t0.1 :: rest.map (fun t => t.1)) (Paper.init u t0.2.2)
      obtain ⟨hu2, hd2, ha2, hc2, hr2⟩ :=
        applySubs_fields (t0'.1 :: rest'.map (fun t => t.1)) (Paper.init u t0'.2.2)
      have hU : (applySubs (Paper.init u t0.2.2) (t0.1 :: rest.map (fun t => t.1))).url =
          (applySubs (Paper.init u t0'.2.2) (t0'.1 :: rest'.map (fun t => t.1))).url := by
        rw [hu1, hu2]
        rfl
      have hA : (applySubs (Paper.init u t0.2.2) (t0.1 :: rest.map (fun t => t.1))).author =
          (applySubs (Paper.init u t0'.2.2) (t0'.1 :: rest'.map (fun t => t.1))).author := by
        rw [ha1, ha2, hm1, hm2, perm_toFinset (hsubs.filterMap _)]
        rfl
      have hC : (applySubs (Paper.init u t0.2.2) (t0.1 :: rest.map (fun t => t.1))).citing =
          (applySubs (Paper.init u t0'.2.2) (t0'.1 :: rest'.map (fun t => t.1))).citing := by
        rw [hc1, hc2, hm1, hm2, perm_toFinset (hsubs.filterMap _)]
        rfl
      have hR : (applySubs (Paper.init u t0.2.2) (t0.1 :: rest.map (fun t => t.1))).related =
          (applySubs (Paper.init u t0'.2.2) (t0'.1 :: rest'.map (fun t => t.1))).related := by
        rw [hr1, hr2, hm1, hm2, perm_toFinset (hsubs.filterMap _)]
        rfl
      rw [hU, hA, hC, hR]
  · cases hf : ts.filter (fun t => t.2.1 == u) with
    | nil =>
      rw [hf] at hk1
      rw [hk1]
      rfl
    | cons t0 rest =>
      rw [hf] at hk1
      rw [hk1]
      simp only [Option.map_some', List.map_cons, List.head?_cons]
      rw [(applySubs_fields _ _).2.1]
      rfl

/-- Claim C8, witness: swapping an author alert and a citation alert for the
same url leaves the final Record's url and name sets unchanged. -/
theorem c8_witness :
    (lookupPaper (runTriples [("A - new articles", "u", "d1"),
        ("B - new citations", "u", "d2")]).papers "u").map
        (fun p => (p.url, p.author, p.citing, p.related)) =
      (lookupPaper (runTriples [("B - new citations", "u", "d2"),
        ("A - new articles", "u", "d1")]).papers "u").map
        (fun p => (p.url, p.author, p.citing, p.related)) :=
  (c8 [("A - new articles", "u", "d1"), ("B - new citations", "u", "d2")]
    [("B - new citations", "u", "d2"), ("A - new articles", "u", "d1")]
    (List.Perm.swap _ _ _) "u").1

/-- Claim C9: the classifier behaves as three mutually exclusive suffix
patterns tried in the fixed order author, citation, related — `note_subject`
coincides with the first-match-wins classifier of the spec's words, a
subject matching none of the patterns changes nothing, and at most one of
the three patterns can match a given subject, so a single call adds a name
to at most one set. -/
theorem c9 (p : Paper) (s : String) :
    note_subject p s = note_subjectSpec p s ∧
    (author_rx s).isSome.toNat + (citing_rx s).isSome.toNat + (related_rx s).isSome.toNat ≤ 1 :=
  ⟨note_subject_eq_spec p s, rx_at_most_one s⟩

/-- Claim C10, counterexample: two invocations with exactly one of the two
flags and no `--file` that do not end in the claimed `TypeError`.  With
`--show ''` the empty pattern is falsy in Python, so `main` takes the
"must pass one of --show or --delete" usage branch and exits with status 1.
With `--show '('` (a pattern `re.compile` rejects, modelled by a `compileOk`
that fails exactly on `"("`), `main` dies of the uncaught `re.error` raised
at the compile step, before the file loop is ever reached. -/
theorem c10_counterexample :
    mainModel (fun _ => true) (some "") none none =
      MainResult.usageExit "must pass one of --show or --delete" ∧
    mainModel (fun _ => true) (some "") none none ≠ MainResult.typeError ∧
    mainModel (fun p => !(p == "(")) (some "(") none none = MainResult.reError ∧
    mainModel (fun p => !(p == "(")) (some "(") none none ≠ MainResult.typeError := by
  decide

/-- Claim C10, amended: invoked with exactly one of `--show` or `--delete`
carrying a non-empty (truthy) pattern that `re.compile` accepts, and no
`--file` argument, `main` prints no usage diagnostic: `args.file` is `None`
and iterating it raises an uncaught `TypeError`.  If the non-empty pattern
fails to compile, the run instead terminates with the uncaught `re.error`
from the compile step, which precedes the file loop. -/
theorem c10_amended (compileOk : String → Bool) (pat : String) (h : pat ≠ "") :
    (compileOk pat = true →
      mainModel compileOk (some pat) none none = MainResult.typeError ∧
      mainModel compileOk none (some pat) none = MainResult.typeError) ∧
    (compileOk pat = false →
      mainModel compileOk (some pat) none none = MainResult.reError ∧
      mainModel compileOk none (some pat) none = MainResult.reError) := by
  have hb : (pat == "") = false := by simpa using h
  constructor
  · intro hc
    constructor <;> simp [mainModel, truthy, hb, hc]
  · intro hc
    constructor <;> simp [mainModel, truthy, hb, hc]

/-- Claim C10, witness for the amended theorem: with the compiling pattern
`"x"` both modes reach the `TypeError`, and with the same pattern rejected
by the compiler the run ends in the `re.error` instead. -/
theorem c10_witness :
    mainModel (fun _ => true) (some "x") none none = MainResult.typeError ∧
    mainModel (fun _ => true) none (some "x") none = MainResult.typeError ∧
    mainModel (fun _ => false) (some "x") none none = MainResult.reError :=
  ⟨((c10_amended (fun _ => true) "x" (by decide)).1 rfl).1,
   ((c10_amended (fun _ => true) "x" (by decide)).1 rfl).2,
   ((c10_amended (fun _ => false) "x" (by decide)).2 rfl).1⟩
